import Mathlib

/-!
Shallow embedding of the payment-reconciliation program (src/app.py).

The program reconciles bank receipts extracted from PDF pages against an
accounts-payable ledger.  Amounts are modelled as exact rationals (the
Python code uses binary floats; every amount appearing in the claims is a
2-decimal currency value, for which the decimal model is faithful).
Pandas dataframes are modelled as Lean lists of records; the in-place
column assignment performed by standardize_data is modelled by explicit
state passing (the argument's state after the call is returned alongside
the result).  The interactive selectbox decisions inside
resolve_ambiguities are modelled as injected decision functions returning
an index into the ambiguous group, universally quantified in the theorems.
-/

namespace App

/-! Python character classes used by the regexes in app.py. -/

/-- Python regex whitespace class (the characters matched by a backslash-s
pattern on ASCII text). -/
def pyWs (c : Char) : Bool :=
  c = ' ' || c = '\t' || c = '\n' || c = '\x0b' || c = '\x0c' || c = '\r'

/-- Character class of the amount capture group in the receipt regex,
namely digits, dot and comma. -/
def isValorCh (c : Char) : Bool :=
  c.isDigit || c = '.' || c = ','

/-- Python str.strip: remove leading and trailing whitespace. -/
def trimWs (l : List Char) : List Char :=
  ((l.dropWhile pyWs).reverse.dropWhile pyWs).reverse

/-- Python str.strip on a String. -/
def pyStrip (s : String) : String :=
  String.mk (trimWs s.data)

/-- Python str.lower (modelled on the ASCII range used by the data). -/
def toLowerStr (s : String) : String :=
  String.mk (s.data.map Char.toLower)

/-- Text normalization used by standardize_data: astype(str).str.lower().str.strip(). -/
def normText (s : String) : String :=
  pyStrip (toLowerStr s)

/-- Numeric value of a digit list (most significant first). -/
def digitsToNat : List Char → Nat
  | [] => 0
  | c :: cs => (c.toNat - '0'.toNat) * 10 ^ cs.length + digitsToNat cs

/-- Decimal part of Python float parsing: digits, optionally followed by a
dot and more digits, or a leading dot followed by digits; the whole input
must be consumed and at least one digit must be present.  Exponent,
underscore and inf/nan forms accepted by Python never arise in this
program's data and are not modelled. -/
def parseDecimal (l : List Char) : Option ℚ :=
  let ip := l.takeWhile Char.isDigit
  let rest := l.drop ip.length
  match rest with
  | [] => if ip.isEmpty then none else some (digitsToNat ip : ℚ)
  | '.' :: fr =>
    if fr.all Char.isDigit && !(ip.isEmpty && fr.isEmpty) then
      some ((digitsToNat ip : ℚ) + (digitsToNat fr : ℚ) / 10 ^ fr.length)
    else none
  | _ => none

/-- Python float(str): strip whitespace, optional sign, decimal literal. -/
def pyFloat (s : String) : Option ℚ :=
  match trimWs s.data with
  | '+' :: rest => parseDecimal rest
  | '-' :: rest => (parseDecimal rest).map (fun q => -q)
  | rest => parseDecimal rest

/-- Regex replacement of every occurrence of lowercase r, dollar sign and
following whitespace with the empty string, as performed on the ledger
Valor column (app.py line 224).  The pattern is case sensitive, so an
uppercase currency prefix is not removed.  The Boolean state records
whether the scanner is inside the trailing whitespace of a match; it
makes the left-to-right regex scan a structural recursion. -/
def stripCurrencyAux : Bool → List Char → List Char
  | _, [] => []
  | _, 'r' :: '$' :: rest => stripCurrencyAux true rest
  | skipping, c :: rest =>
    if skipping && pyWs c then stripCurrencyAux true rest
    else c :: stripCurrencyAux false rest

/-- Entry point of the currency-prefix removal. -/
def stripCurrency (l : List Char) : List Char :=
  stripCurrencyAux false l

/-- Replace every comma by a dot (str.replace on the ledger Valor column). -/
def commaToDot (l : List Char) : List Char :=
  l.map (fun c => if c = ',' then '.' else c)

/-- Ledger amount canonicalization, app.py line 224:
str.replace of the lowercase currency-prefix regex, then replace comma by
dot, then astype(float).  A parse failure of float raises in Python; it is
modelled as none. -/
def ledgerValorParse (s : String) : Option ℚ :=
  pyFloat (String.mk (commaToDot (stripCurrency s.data)))

/-- Round-half-to-even to an integer, as numpy rounding does on the exact
decimal values arising here.  Expressed through the floor division of the
numerator by the denominator so that it evaluates by kernel reduction. -/
def roundHalfEven (q : ℚ) : ℤ :=
  let f := Int.fdiv q.num (q.den : ℤ)
  let rem := q.num - f * (q.den : ℤ)
  if 2 * rem < (q.den : ℤ) then f
  else if (q.den : ℤ) < 2 * rem then f + 1
  else if f % 2 = 0 then f else f + 1

/-- Rounding to two decimals, as used for the Valor_std comparison columns
(app.py lines 207 and 225). -/
def round2 (q : ℚ) : ℚ :=
  (roundHalfEven (q * 100) : ℚ) / 100

/-! Field extractor (extract_transactions, app.py lines 13-51).  Each of
the five regex searches of the Python code is modelled as a matcher that
recognizes the pattern at the head of a character list, lifted over all
start positions by searchText, exactly like re.search scans left to
right and returns the first match. -/

/-- Drop a literal pattern from the head of the input, or fail. -/
def dropPrefixCh (p l : List Char) : Option (List Char) :=
  if p.isPrefixOf l then some (l.drop p.length) else none

/-- re.search: try the matcher at every start position, leftmost match
first (the empty suffix included). -/
def searchText (m : List Char → Option (List Char)) : List Char → Option (List Char)
  | [] => m []
  | c :: rest =>
    match m (c :: rest) with
    | some r => some r
    | none => searchText m rest

/-- Matcher for a two-digit slash two-digit slash four-digit date group. -/
def matchDate (l : List Char) : Option (List Char) :=
  match l with
  | a :: b :: s1 :: c :: d :: s2 :: e :: f :: g :: h :: _ =>
    if a.isDigit && b.isDigit && s1 = '/' && c.isDigit && d.isDigit && s2 = '/'
        && e.isDigit && f.isDigit && g.isDigit && h.isDigit then
      some [a, b, s1, c, d, s2, e, f, g, h]
    else none
  | _ => none

/-- Pattern of app.py line 25: the operation-date label, optional
whitespace, then a DD/MM/YYYY date group. -/
def matchDataOperacaoAt (l : List Char) : Option (List Char) :=
  match dropPrefixCh "Data da operação:".data l with
  | none => none
  | some l1 => matchDate (l1.dropWhile pyWs)

/-- Pattern of app.py line 26: the document label, optional whitespace,
then a nonempty digit group. -/
def matchDocumentoAt (l : List Char) : Option (List Char) :=
  match dropPrefixCh "Documento:".data l with
  | none => none
  | some l1 =>
    let ds := (l1.dropWhile pyWs).takeWhile Char.isDigit
    if ds.isEmpty then none else some ds

/-- Lazy capture of the shortest run of non-newline characters that is
followed by optional whitespace and a pipe character (the group of the
Empresa pattern, app.py line 27). -/
def lazyUntilPipe : List Char → Option (List Char)
  | [] => none
  | c :: rest =>
    if (List.dropWhile pyWs (c :: rest)).head? = some '|' then some []
    else if c = '\n' then none
    else (lazyUntilPipe rest).map (fun g => c :: g)

/-- Pattern of app.py line 27: the Empresa label, whitespace, then a lazy
group up to a pipe separator. -/
def matchEmpresaAt (l : List Char) : Option (List Char) :=
  match dropPrefixCh "Empresa:".data l with
  | none => none
  | some l1 => lazyUntilPipe (l1.dropWhile pyWs)

/-- Lazy capture of the shortest run of non-newline characters followed by
a newline (the group of the favorecido pattern, app.py line 28). -/
def lazyUntilNl : List Char → Option (List Char)
  | [] => none
  | c :: rest =>
    if c = '\n' then some []
    else (lazyUntilNl rest).map (fun g => c :: g)

/-- Pattern of app.py line 28: the favorecido label, whitespace, then a
lazy group up to a newline. -/
def matchFavorecidoAt (l : List Char) : Option (List Char) :=
  match dropPrefixCh "Nome do favorecido:".data l with
  | none => none
  | some l1 => lazyUntilNl (l1.dropWhile pyWs)

/-- Pattern of app.py line 29: the Valor label, whitespace, the currency
sign, whitespace, then a nonempty group of digits, dots and commas.  An
amount text made of other characters, such as letters, does not match. -/
def matchValorAt (l : List Char) : Option (List Char) :=
  match dropPrefixCh "Valor".data l with
  | none => none
  | some l1 =>
    match dropPrefixCh "R$".data (l1.dropWhile pyWs) with
    | none => none
    | some l2 =>
      let run := (l2.dropWhile pyWs).takeWhile isValorCh
      if run.isEmpty then none else some run

/-- Search wrappers over the whole page text. -/
def searchDataOperacao (s : String) : Option (List Char) :=
  searchText matchDataOperacaoAt s.data

def searchDocumento (s : String) : Option (List Char) :=
  searchText matchDocumentoAt s.data

def searchEmpresa (s : String) : Option (List Char) :=
  searchText matchEmpresaAt s.data

def searchFavorecido (s : String) : Option (List Char) :=
  searchText matchFavorecidoAt s.data

def searchValor (s : String) : Option (List Char) :=
  searchText matchValorAt s.data

/-- Amount conversion of app.py lines 36-40: strip the captured group,
remove every dot (thousands separator), turn the comma into a dot and
call float; a float failure is caught and coerced to 0.0. -/
def valorGroupToRat (g : List Char) : ℚ :=
  (pyFloat (String.mk (commaToDot ((trimWs g).filter (fun c => c != '.'))))).getD 0

/-- Two-digit zero-padded decimal, for the cents of the file name. -/
def natPad2 (n : Nat) : String :=
  if n < 10 then "0" ++ toString n else toString n

/-- Python format of a float with two decimals, as used in the receipt
file name (app.py line 41). -/
def fmt2 (q : ℚ) : String :=
  let c := roundHalfEven (q * 100)
  (if c < 0 then "-" else "") ++ toString (c.natAbs / 100) ++ "." ++ natPad2 (c.natAbs % 100)

/-- Replace one character by another everywhere in a string. -/
def replCh (a b : Char) (s : String) : String :=
  String.mk (s.data.map (fun c => if c = a then b else c))

/-- Summary record appended for an extracted page (app.py lines 43-50). -/
structure Summary where
  empresa : String
  fornecedor : String
  dataOperacao : String
  valor : ℚ
  numeroDocumento : String
  arquivoPdf : String
deriving DecidableEq, Inhabited

/-- Per-page body of extract_transactions (app.py lines 21-50): the five
independent regex searches; the page yields a record only when all five
match, otherwise it is skipped. -/
def extractPage (text : String) : Option Summary :=
  match searchDataOperacao text, searchDocumento text, searchEmpresa text,
      searchFavorecido text, searchValor text with
  | some d, some n, some e, some f, some v =>
    let dataOperacao := pyStrip (String.mk d)
    let numeroDocumento := pyStrip (String.mk n)
    let empresa := pyStrip (String.mk e)
    let fornecedor := pyStrip (String.mk f)
    let valor := valorGroupToRat v
    let fileName := replCh ' ' '_' empresa ++ "_para_" ++ replCh ' ' '_' fornecedor
      ++ "_" ++ replCh '/' '-' dataOperacao ++ "_R$" ++ fmt2 valor ++ ".pdf"
    some ⟨empresa, fornecedor, dataOperacao, valor, numeroDocumento, fileName⟩
  | _, _, _, _, _ => none

/-- extract_transactions over the pages of a document: the summary list of
the pages that match the receipt layout (the parallel list of page
numbers and file names of the Python code is a projection of the same
records and is not modelled separately). -/
def extract_transactions (pages : List String) : List Summary :=
  pages.filterMap extractPage

/-! Canonicalizer.  standardize_data operates on a generic dataframe and
mutates its argument in place (df[col] = ...).  The generic frame is a
list of rows, each an association list from column name to cell text;
the call is modelled by explicit state passing: the returned value and
the state of the argument after the call are both reported. -/

/-- Pure columnwise normalization applied by standardize_data (app.py
lines 68-72) to the listed columns. -/
def standardize_data_table (df : List (List (String × String))) (columns : List String) :
    List (List (String × String)) :=
  df.map (fun row => row.map (fun kv => if kv.1 ∈ columns then (kv.1, normText kv.2) else kv))

/-- Result of calling standardize_data: the returned frame and the state
of the argument dataframe after the call. -/
structure StandardizeCall where
  ret : List (List (String × String))
  argAfter : List (List (String × String))
deriving DecidableEq

/-- Call semantics of standardize_data: the function assigns each listed
column of its argument in place and returns that same object, so both the
return value and the argument end up equal to the normalized table. -/
def standardize_data_call (df : List (List (String × String))) (columns : List String) :
    StandardizeCall :=
  ⟨standardize_data_table df columns, standardize_data_table df columns⟩

/-! Typed records of the reconciliation pipeline, after standardization
(app.py lines 204-228).  Conta is one ledger row of df_contas_std, Comp is
one receipt row of df_comprovantes_std; Valor_std carries the rounded
amount.  The conversion of the date columns to datetime values and the
derived Data_Match column add per-row display data only and do not affect
row identity or multiplicity, so the date cells are kept as text. -/

/-- One standardized accounts-payable row. -/
structure Conta where
  empresa : String
  fornecedor : String
  dataVencimento : String
  valor : ℚ
  valorStd : ℚ
  codigo : String
deriving DecidableEq, Inhabited

/-- One standardized receipt row. -/
structure Comp where
  empresa : String
  fornecedor : String
  dataOperacao : String
  valor : ℚ
  valorStd : ℚ
  numeroDocumento : String
  arquivoPdf : String
deriving DecidableEq, Inhabited

/-- One row of the reconciled table: the payable columns together with the
receipt columns when a receipt was joined (none models the NaN cells of
an unmatched left join or fuzzy miss) and the fuzzy score column. -/
structure Row where
  conta : Conta
  comp : Option Comp
  fuzzyScore : Option ℚ
deriving DecidableEq, Inhabited

/-- The Código cell of a reconciled row. -/
def codigoOf (r : Row) : String :=
  r.conta.codigo

/-- The Número do Documento cell of a reconciled row (none for NaN). -/
def docOf (r : Row) : Option String :=
  r.comp.map (fun c => c.numeroDocumento)

/-- Standardization of an extracted receipt (app.py lines 205-207): lower
and strip the two name columns and add the rounded Valor_std column. -/
def stdComp (s : Summary) : Comp :=
  { empresa := normText s.empresa
    fornecedor := normText s.fornecedor
    dataOperacao := s.dataOperacao
    valor := s.valor
    valorStd := round2 s.valor
    numeroDocumento := s.numeroDocumento
    arquivoPdf := s.arquivoPdf }

/-- One raw ledger row as read from the CSV (all cells text). -/
structure ContaRaw where
  empresa : String
  fornecedor : String
  dataVencimento : String
  valor : String
  codigo : String

/-- Standardization of a ledger row (app.py lines 221-226): lower and
strip the name columns, strip the Código, parse the Valor column with the
currency-prefix and comma replacements, and add Valor_std.  A float
failure on Valor raises in Python and is modelled as none. -/
def stdConta (c : ContaRaw) : Option Conta :=
  (ledgerValorParse c.valor).map (fun v =>
    { empresa := normText c.empresa
      fornecedor := normText c.fornecedor
      dataVencimento := c.dataVencimento
      valor := v
      valorStd := round2 v
      codigo := pyStrip c.codigo })

/-! Matcher, exact strategy (app.py lines 232-240): pandas left merge of
the payables on the receipts over the standardized Empresa, Fornecedor
and Valor_std columns.  A left row with no key match yields one row with
NaN receipt cells; a left row with several key matches fans out to one
row per match, in receipt order. -/

/-- Join-key equality of the exact strategy. -/
def matchKeyB (conta : Conta) (comp : Comp) : Bool :=
  decide (comp.empresa = conta.empresa) && decide (comp.fornecedor = conta.fornecedor)
    && decide (comp.valorStd = conta.valorStd)

/-- Reconciled row of a payable with no receipt. -/
def unmatchedRow (conta : Conta) : Row :=
  ⟨conta, none, none⟩

/-- Reconciled row of an exact match (the merge has no score column). -/
def mkMatched (conta : Conta) (comp : Comp) : Row :=
  ⟨conta, some comp, none⟩

/-- Rows contributed by one payable in the left merge. -/
def exactRowsFor (comps : List Comp) (conta : Conta) : List Row :=
  let ms := comps.filter (matchKeyB conta)
  if ms.isEmpty then [unmatchedRow conta] else ms.map (mkMatched conta)

/-- The left merge itself, in payable order. -/
def exact_merge : List Conta → List Comp → List Row
  | [], _ => []
  | c :: cs, comps => exactRowsFor comps c ++ exact_merge cs comps

/-! Matcher, fuzzy strategy (fuzzy_merge, app.py lines 74-110).  The two
similarity libraries are external collaborators; their token-set ratio
functions are abstract parameters.  For an unknown method string the loop
body reads the score variables before any assignment, which raises a
NameError as soon as some payable has a nonempty candidate set. -/

/-- Combined score of app.py line 95: the mean of the Empresa score and
the Fornecedor score. -/
def combinedScore (sim : String → String → ℚ) (conta : Conta) (comp : Comp) : ℚ :=
  (sim conta.empresa comp.empresa + sim conta.fornecedor comp.fornecedor) / 2

/-- Rows contributed by one payable in fuzzy_merge: receipts are first
filtered by exact Valor_std equality, then by the combined score reaching
the threshold; with no surviving candidate the payable yields exactly one
unmatched row. -/
def fuzzyRowsFor (simFW simRF : String → String → ℚ) (method : String) (threshold : ℚ)
    (comps : List Comp) (conta : Conta) : Except String (List Row) :=
  let candidates := comps.filter (fun c => decide (c.valorStd = conta.valorStd))
  if candidates.isEmpty then Except.ok [unmatchedRow conta]
  else if method = "fuzzywuzzy" ∨ method = "rapidfuzz" then
    let sim := if method = "fuzzywuzzy" then simFW else simRF
    let hits := candidates.filter (fun c => decide (threshold ≤ combinedScore sim conta c))
    Except.ok (if hits.isEmpty then [unmatchedRow conta]
      else hits.map (fun c => ⟨conta, some c, some (combinedScore sim conta c)⟩))
  else Except.error "NameError: name score_empresa is not defined"

/-- fuzzy_merge over the payable rows, in order; the first payable whose
loop body raises aborts the whole call. -/
def fuzzy_merge (simFW simRF : String → String → ℚ) (method : String) (threshold : ℚ)
    (comps : List Comp) : List Conta → Except String (List Row)
  | [] => Except.ok []
  | c :: cs =>
    match fuzzyRowsFor simFW simRF method threshold comps c with
    | Except.error e => Except.error e
    | Except.ok rs =>
      match fuzzy_merge simFW simRF method threshold comps cs with
      | Except.error e => Except.error e
      | Except.ok rest => Except.ok (rs ++ rest)

/-! Ambiguity resolver (resolve_ambiguities, app.py lines 112-167).

Phase 1 groups the rows by Código with pandas groupby, which iterates the
groups in ascending key order, keeps every singleton group and keeps one
user-chosen member of every larger group, then concatenates with a fresh
index.  Phase 2 collects the rows whose non-null Número do Documento
occurs more than once, and for every such document drops all rows of its
group except the user-chosen one, preserving positions.  The interactive
selectbox choices are injected decision functions from the group key to
an index into the group, universally quantified in the theorems. -/

/-- Code-point lexicographic string order (the sort order pandas groupby
uses on string keys), as a Boolean. -/
def lexLe : List Char → List Char → Bool
  | [], _ => true
  | _ :: _, [] => false
  | a :: as, b :: bs => if a < b then true else if a = b then lexLe as bs else false

/-- String comparison wrapper of lexLe. -/
def strLe (a b : String) : Bool :=
  lexLe a.data b.data

/-- Insert a key into a sorted key list (stable). -/
def insertSorted (s : String) : List String → List String
  | [] => [s]
  | t :: ts => if strLe s t then s :: t :: ts else t :: insertSorted s ts

/-- Insertion sort of the group keys. -/
def sortStr : List String → List String
  | [] => []
  | s :: ss => insertSorted s (sortStr ss)

/-- The distinct Código keys in ascending order, as pandas groupby
enumerates them. -/
def sortedCodigos (rows : List Row) : List String :=
  sortStr ((rows.map codigoOf).dedup)

/-- The group member kept by a decision: the index is taken modulo the
group size, so any decision function selects some member of a nonempty
group. -/
def pickRow (g : List Row) (k : Nat) : Row :=
  g.getD (k % g.length) default

/-- Rows contributed by one Código group: a singleton group passes
through, a larger group is reduced to the chosen member (app.py lines
122-142). -/
def keyRows (rows : List Row) (decC : String → Nat) (c : String) : List Row :=
  let g := rows.filter (fun r => decide (codigoOf r = c))
  if g.length = 1 then g else [pickRow g (decC c)]

/-- Concatenation of the per-key group results over a key list. -/
def phase1Go (rows : List Row) (decC : String → Nat) : List String → List Row
  | [] => []
  | c :: cs => keyRows rows decC c ++ phase1Go rows decC cs

/-- Phase 1 of resolve_ambiguities: per-Código resolution, groups visited
in ascending key order. -/
def resolve_codigo (rows : List Row) (decC : String → Nat) : List Row :=
  phase1Go rows decC (sortedCodigos rows)

/-- Positions (0-based, the post-concat index of phase 1) of the rows
whose document cell equals the given document. -/
def posGo (d : String) : Nat → List Row → List Nat
  | _, [] => []
  | i, r :: rs => (if docOf r = some d then [i] else []) ++ posGo d (i + 1) rs

/-- All positions of a document value. -/
def positionsOf (rows : List Row) (d : String) : List Nat :=
  posGo d 0 rows

/-- Position kept for an ambiguous document: the decision selects one of
the group positions. -/
def chosenPos (rows : List Row) (decD : String → Nat) (d : String) : Nat :=
  let ps := positionsOf rows d
  ps.getD (decD d % ps.length) 0

/-- Whether the row at a position survives phase 2: rows with a null
document always survive, rows of a document occurring at most once
survive, and of an ambiguous document only the chosen position survives
(the drop of app.py line 166). -/
def keepRow (rows : List Row) (decD : String → Nat) (i : Nat) (r : Row) : Bool :=
  match docOf r with
  | none => true
  | some d =>
    if (positionsOf rows d).length ≤ 1 then true
    else decide (i = chosenPos rows decD d)

/-- Positional filter implementing the accumulated drops of phase 2. -/
def phase2Go (rows : List Row) (decD : String → Nat) : Nat → List Row → List Row
  | _, [] => []
  | i, r :: rs =>
    (if keepRow rows decD i r then [r] else []) ++ phase2Go rows decD (i + 1) rs

/-- Phase 2 of resolve_ambiguities: per-document resolution over the
output of phase 1. -/
def resolve_documento (rows : List Row) (decD : String → Nat) : List Row :=
  phase2Go rows decD 0 rows

/-- resolve_ambiguities: the Código pass followed by the document pass. -/
def resolve_ambiguities (rows : List Row) (decC decD : String → Nat) : List Row :=
  resolve_documento (resolve_codigo rows decC) decD

/-! Top-level reconciliation (app.py lines 256-263): the resolver runs
only when the merged table has a duplicated Código or a duplicated
non-null document. -/

/-- The duplicate test of app.py lines 257-259. -/
def hasAmbiguity (rows : List Row) : Bool :=
  !decide ((rows.map codigoOf).Nodup) || !decide ((rows.filterMap docOf).Nodup)

/-- Reconciliation with the exact strategy followed by conditional
ambiguity resolution, producing the final reconciled table. -/
def reconcile_exact (contas : List Conta) (comps : List Comp) (decC decD : String → Nat) :
    List Row :=
  let m := exact_merge contas comps
  if hasAmbiguity m then resolve_ambiguities m decC decD else m

/-! Helper lemmas. -/

theorem getD_mem {α : Type} (l : List α) (n : Nat) (d : α) (h : n < l.length) :
    l.getD n d ∈ l := by
  induction l generalizing n with
  | nil => simp at h
  | cons a as ih =>
    cases n with
    | zero => simp [List.getD]
    | succ m =>
      have hm : m < as.length := by simpa using h
      have := ih m hm
      simp only [List.getD] at this ⊢
      simpa using Or.inr this

theorem pickRow_mem (g : List Row) (k : Nat) (h : g ≠ []) : pickRow g k ∈ g := by
  have hl : 0 < g.length := List.length_pos.mpr h
  exact getD_mem g (k % g.length) default (Nat.mod_lt _ hl)

theorem countP_codigo_eq_count (rows : List Row) (c : String) :
    rows.countP (fun r => decide (codigoOf r = c)) = (rows.map codigoOf).count c := by
  induction rows with
  | nil => rfl
  | cons r rs ih =>
    simp only [List.countP_cons, List.map_cons, List.count_cons, ih]
    by_cases h : codigoOf r = c <;> simp [h]

theorem countP_doc_eq_count (rows : List Row) (d : String) :
    rows.countP (fun r => decide (docOf r = some d)) = (rows.filterMap docOf).count d := by
  induction rows with
  | nil => rfl
  | cons r rs ih =>
    cases hr : docOf r with
    | none => simp [List.countP_cons, List.filterMap_cons, hr, ih]
    | some d2 =>
      simp only [List.countP_cons, List.filterMap_cons, hr, List.count_cons, ih]
      by_cases h : d2 = d
      · simp [h]
      · have h2 : ¬(some d2 = some d) := by simpa using h
        simp [h, h2]

/-! Phase 2 lemmas. -/

theorem phase2Go_sublist (rows : List Row) (decD : String → Nat) :
    ∀ (l : List Row) (i : Nat), List.Sublist (phase2Go rows decD i l) l := by
  intro l
  induction l with
  | nil => intro i; simp [phase2Go]
  | cons r rs ih =>
    intro i
    simp only [phase2Go]
    by_cases h : keepRow rows decD i r
    · simpa [h] using List.Sublist.cons₂ r (ih (i + 1))
    · simpa [h] using List.Sublist.cons r (ih (i + 1))

theorem posGo_length (d : String) :
    ∀ (l : List Row) (i : Nat),
      (posGo d i l).length = l.countP (fun r => decide (docOf r = some d)) := by
  intro l
  induction l with
  | nil => intro i; rfl
  | cons r rs ih =>
    intro i
    simp only [posGo, List.countP_cons, List.length_append, ih (i + 1)]
    by_cases h : docOf r = some d <;> simp [h, Nat.add_comm]

theorem keepRow_doc_eq (rows : List Row) (decD : String → Nat) (d : String)
    (hlen : 1 < (positionsOf rows d).length) (i : Nat) (r : Row)
    (hdoc : docOf r = some d) (hkeep : keepRow rows decD i r = true) :
    i = chosenPos rows decD d := by
  unfold keepRow at hkeep
  rw [hdoc] at hkeep
  have hnot : ¬((positionsOf rows d).length ≤ 1) := by omega
  simp only [hnot, if_false] at hkeep
  exact of_decide_eq_true hkeep

theorem phase2Go_doc_zero (rows : List Row) (decD : String → Nat) (d : String)
    (hlen : 1 < (positionsOf rows d).length) :
    ∀ (l : List Row) (i : Nat), chosenPos rows decD d < i →
      (phase2Go rows decD i l).countP (fun r => decide (docOf r = some d)) = 0 := by
  intro l
  induction l with
  | nil => intro i _; rfl
  | cons r rs ih =>
    intro i hi
    simp only [phase2Go, List.countP_append]
    have htail := ih (i + 1) (by omega)
    by_cases hkeep : keepRow rows decD i r
    · by_cases hdoc : docOf r = some d
      · exact absurd (keepRow_doc_eq rows decD d hlen i r hdoc hkeep) (by omega)
      · simp [hkeep, htail, List.countP_cons, hdoc]
    · simp [hkeep, htail]

theorem phase2Go_doc_le_one (rows : List Row) (decD : String → Nat) (d : String)
    (hlen : 1 < (positionsOf rows d).length) :
    ∀ (l : List Row) (i : Nat),
      (phase2Go rows decD i l).countP (fun r => decide (docOf r = some d)) ≤ 1 := by
  intro l
  induction l with
  | nil => intro i; simp [phase2Go]
  | cons r rs ih =>
    intro i
    simp only [phase2Go, List.countP_append]
    by_cases hkeep : keepRow rows decD i r
    · by_cases hdoc : docOf r = some d
      · have hchosen := keepRow_doc_eq rows decD d hlen i r hdoc hkeep
        have hzero := phase2Go_doc_zero rows decD d hlen rs (i + 1) (by omega)
        simp [hkeep, hdoc, List.countP_cons, hzero]
      · have := ih (i + 1)
        simp only [hkeep, if_true, List.countP_cons, hdoc]
        simpa using this
    · have := ih (i + 1)
      simpa [hkeep] using this

theorem resolve_documento_doc_le_one (rows : List Row) (decD : String → Nat) (d : String) :
    (resolve_documento rows decD).countP (fun r => decide (docOf r = some d)) ≤ 1 := by
  by_cases hlen : 1 < (positionsOf rows d).length
  · exact phase2Go_doc_le_one rows decD d hlen rows 0
  · have hsub := phase2Go_sublist rows decD rows 0
    have hle := hsub.countP_le (fun r => decide (docOf r = some d))
    have hcount : rows.countP (fun r => decide (docOf r = some d))
        = (positionsOf rows d).length := (posGo_length d rows 0).symm
    unfold resolve_documento
    omega

theorem phase2Go_id (rows : List Row) (decD : String → Nat)
    (hd : ∀ d, (positionsOf rows d).length ≤ 1) :
    ∀ (l : List Row) (i : Nat), phase2Go rows decD i l = l := by
  intro l
  induction l with
  | nil => intro i; rfl
  | cons r rs ih =>
    intro i
    have hkeep : keepRow rows decD i r = true := by
      unfold keepRow
      cases hr : docOf r with
      | none => rfl
      | some d => simp [hd d]
    simp [phase2Go, hkeep, ih (i + 1)]

/-! Phase 1 lemmas. -/

theorem mem_insertSorted (a s : String) (l : List String) :
    a ∈ insertSorted s l ↔ a = s ∨ a ∈ l := by
  induction l with
  | nil => simp [insertSorted]
  | cons t ts ih =>
    cases h : strLe s t with
    | true => simp [insertSorted, h]
    | false =>
      simp only [insertSorted, h, Bool.false_eq_true, if_false, List.mem_cons, ih]
      tauto

theorem mem_sortStr (a : String) (l : List String) : a ∈ sortStr l ↔ a ∈ l := by
  induction l with
  | nil => simp [sortStr]
  | cons s ss ih => simp [sortStr, mem_insertSorted, ih]

theorem nodup_insertSorted (s : String) (l : List String) (hs : s ∉ l) (hl : l.Nodup) :
    (insertSorted s l).Nodup := by
  induction l with
  | nil => simp [insertSorted]
  | cons t ts ih =>
    rcases List.nodup_cons.mp hl with ⟨ht, hts⟩
    cases h : strLe s t with
    | true =>
      simp only [insertSorted, h, if_true, List.nodup_cons]
      exact ⟨hs, ht, hts⟩
    | false =>
      simp only [insertSorted, h, Bool.false_eq_true, if_false, List.nodup_cons,
        mem_insertSorted]
      refine ⟨?_, ih (fun hmem => hs (List.mem_cons_of_mem t hmem)) hts⟩
      rintro (rfl | hmem)
      · exact hs (List.mem_cons_self t ts)
      · exact ht hmem

theorem nodup_sortStr (l : List String) (hl : l.Nodup) : (sortStr l).Nodup := by
  induction l with
  | nil => simp [sortStr]
  | cons s ss ih =>
    rcases List.nodup_cons.mp hl with ⟨hs, hss⟩
    exact nodup_insertSorted s (sortStr ss) (fun h => hs ((mem_sortStr s ss).mp h)) (ih hss)

theorem sortedCodigos_nodup (rows : List Row) : (sortedCodigos rows).Nodup :=
  nodup_sortStr _ (List.nodup_dedup _)

theorem mem_sortedCodigos (rows : List Row) (c : String) :
    c ∈ sortedCodigos rows ↔ c ∈ rows.map codigoOf := by
  unfold sortedCodigos
  rw [mem_sortStr, List.mem_dedup]

theorem keyRows_single (rows : List Row) (decC : String → Nat) (c : String)
    (h : c ∈ rows.map codigoOf) :
    ∃ r, keyRows rows decC c = [r] ∧ codigoOf r = c := by
  unfold keyRows
  set g := rows.filter (fun r => decide (codigoOf r = c)) with hg
  have hne : g ≠ [] := by
    rcases List.mem_map.mp h with ⟨r, hr, hrc⟩
    intro hnil
    have : r ∈ g := by
      rw [hg]
      exact List.mem_filter.mpr ⟨hr, by simpa using hrc⟩
    rw [hnil] at this
    exact absurd this (List.not_mem_nil r)
  by_cases hl : g.length = 1
  · rcases List.length_eq_one.mp hl with ⟨r, hr⟩
    refine ⟨r, by simp [hl, hr], ?_⟩
    have : r ∈ g := by simp [hr]
    have := List.mem_filter.mp this
    simpa using this.2
  · refine ⟨pickRow g (decC c), by simp [hl], ?_⟩
    have hmem := pickRow_mem g (decC c) hne
    have := List.mem_filter.mp hmem
    simpa using this.2

theorem phase1Go_count (rows : List Row) (decC : String → Nat) (c0 : String) :
    ∀ (l : List String), l.Nodup → (∀ c ∈ l, c ∈ rows.map codigoOf) →
      (phase1Go rows decC l).countP (fun r => decide (codigoOf r = c0))
        = if c0 ∈ l then 1 else 0 := by
  intro l
  induction l with
  | nil => intro _ _; simp [phase1Go]
  | cons c cs ih =>
    intro hnd hmem
    rcases List.nodup_cons.mp hnd with ⟨hc, hcs⟩
    rcases keyRows_single rows decC c (hmem c (List.mem_cons_self c cs)) with ⟨r, hkr, hrc⟩
    have htail := ih hcs (fun x hx => hmem x (List.mem_cons_of_mem c hx))
    simp only [phase1Go, List.countP_append, hkr, htail]
    by_cases h : c0 = c
    · subst h
      simp [List.countP_cons, hrc, hc]
    · have hneq : ¬(codigoOf r = c0) := by rw [hrc]; exact fun hcc => h hcc.symm
      simp only [List.countP_cons, List.countP_nil, hneq, decide_eq_true_eq, if_false]
      by_cases hin : c0 ∈ cs <;> simp [hin, h]

theorem resolve_codigo_count_le_one (rows : List Row) (decC : String → Nat) (c : String) :
    (resolve_codigo rows decC).countP (fun r => decide (codigoOf r = c)) ≤ 1 := by
  unfold resolve_codigo
  rw [phase1Go_count rows decC c (sortedCodigos rows) (sortedCodigos_nodup rows)
    (fun x hx => (mem_sortedCodigos rows x).mp hx)]
  by_cases h : c ∈ sortedCodigos rows <;> simp [h]

theorem resolve_ambiguities_codigo_le_one (rows : List Row) (decC decD : String → Nat)
    (c : String) :
    (resolve_ambiguities rows decC decD).countP (fun r => decide (codigoOf r = c)) ≤ 1 := by
  unfold resolve_ambiguities resolve_documento
  have hsub := phase2Go_sublist (resolve_codigo rows decC) decD (resolve_codigo rows decC) 0
  have hle := hsub.countP_le (fun r => decide (codigoOf r = c))
  have := resolve_codigo_count_le_one rows decC c
  omega

/-! Idempotence-side lemmas: on a table without duplicated keys, phase 1
reproduces the rows in ascending Código order and phase 2 is the
identity. -/

theorem sortStr_eq_of_sorted (l : List String)
    (h : l.Pairwise (fun a b => strLe a b = true)) : sortStr l = l := by
  induction l with
  | nil => rfl
  | cons s ss ih =>
    rcases List.pairwise_cons.mp h with ⟨hhead, htail⟩
    rw [sortStr, ih htail]
    cases ss with
    | nil => rfl
    | cons t ts =>
      have : strLe s t = true := hhead t (List.mem_cons_self t ts)
      simp [insertSorted, this]

theorem filter_codigo_eq_nil (rows : List Row) (c : String)
    (h : c ∉ rows.map codigoOf) :
    rows.filter (fun r => decide (codigoOf r = c)) = [] := by
  induction rows with
  | nil => rfl
  | cons r rs ih =>
    have hr : codigoOf r ≠ c := fun hc => h (by simp [hc])
    have hrs : c ∉ rs.map codigoOf := fun hc => h (List.mem_cons_of_mem _ hc)
    simp [List.filter_cons, hr, ih hrs]

theorem phase1Go_drop_head (r : Row) (rs : List Row) (decC : String → Nat) :
    ∀ (l : List String), (∀ c ∈ l, c ≠ codigoOf r) →
      phase1Go (r :: rs) decC l = phase1Go rs decC l := by
  intro l
  induction l with
  | nil => intro _; rfl
  | cons c cs ih =>
    intro hne
    have hc : codigoOf r ≠ c := fun h => hne c (List.mem_cons_self c cs) h.symm
    have hfilter : (r :: rs).filter (fun x => decide (codigoOf x = c))
        = rs.filter (fun x => decide (codigoOf x = c)) := by
      simp [List.filter_cons, hc]
    simp only [phase1Go, keyRows, hfilter, ih (fun x hx => hne x (List.mem_cons_of_mem c hx))]

theorem phase1Go_self (rows : List Row) (decC : String → Nat)
    (hnd : (rows.map codigoOf).Nodup) :
    phase1Go rows decC (rows.map codigoOf) = rows := by
  induction rows with
  | nil => rfl
  | cons r rs ih =>
    rw [List.map_cons] at hnd
    rcases List.nodup_cons.mp hnd with ⟨hr, hrs⟩
    have hfilter : (r :: rs).filter (fun x => decide (codigoOf x = codigoOf r)) = [r] := by
      have : rs.filter (fun x => decide (codigoOf x = codigoOf r)) = [] :=
        filter_codigo_eq_nil rs (codigoOf r) hr
      simp [List.filter_cons, this]
    have hhead : keyRows (r :: rs) decC (codigoOf r) = [r] := by
      simp [keyRows, hfilter]
    have htail : phase1Go (r :: rs) decC (rs.map codigoOf)
        = phase1Go rs decC (rs.map codigoOf) :=
      phase1Go_drop_head r rs decC (rs.map codigoOf)
        (fun c hc hceq => hr (hceq ▸ hc))
    simp only [List.map_cons, phase1Go, hhead, htail, ih hrs, List.singleton_append]

theorem positions_le_one_of_docs_nodup (rows : List Row)
    (h : (rows.filterMap docOf).Nodup) (d : String) :
    (positionsOf rows d).length ≤ 1 := by
  have hc := List.nodup_iff_count_le_one.mp h d
  have := posGo_length d rows 0
  unfold positionsOf
  rw [this, countP_doc_eq_count rows d]
  exact hc

theorem resolve_codigo_resolved (rows : List Row) (decC : String → Nat)
    (h1 : (rows.map codigoOf).Nodup)
    (h3 : (rows.map codigoOf).Pairwise (fun a b => strLe a b = true)) :
    resolve_codigo rows decC = rows := by
  unfold resolve_codigo sortedCodigos
  rw [List.dedup_eq_self.mpr h1, sortStr_eq_of_sorted _ h3, phase1Go_self rows decC h1]

theorem resolve_documento_resolved (rows : List Row) (decD : String → Nat)
    (h2 : (rows.filterMap docOf).Nodup) :
    resolve_documento rows decD = rows :=
  phase2Go_id rows decD (positions_le_one_of_docs_nodup rows h2) rows 0

/-! Exact-merge lemmas. -/

theorem exactRowsFor_conta (comps : List Comp) (p : Conta) (row : Row)
    (h : row ∈ exactRowsFor comps p) : row.conta = p := by
  unfold exactRowsFor at h
  by_cases he : (comps.filter (matchKeyB p)).isEmpty
  · rw [if_pos he] at h
    simp only [List.mem_singleton] at h
    simp [h, unmatchedRow]
  · rw [if_neg he] at h
    rcases List.mem_map.mp h with ⟨c, _, hc⟩
    simp [← hc, mkMatched]

theorem exactRowsFor_count (comps : List Comp) (p : Conta) :
    (exactRowsFor comps p).countP (fun row => decide (row.conta = p))
      = max 1 (comps.countP (matchKeyB p)) := by
  unfold exactRowsFor
  by_cases he : (comps.filter (matchKeyB p)).isEmpty
  · have h0 : comps.countP (matchKeyB p) = 0 := by
      rw [List.countP_eq_length_filter]
      simpa [List.isEmpty_iff_length_eq_zero] using he
    simp [he, h0, List.countP_cons, unmatchedRow]
  · have hlen : (comps.filter (matchKeyB p)).length = comps.countP (matchKeyB p) :=
      (List.countP_eq_length_filter (matchKeyB p) comps).symm
    have hpos : 1 ≤ comps.countP (matchKeyB p) := by
      have hne : (comps.filter (matchKeyB p)).length ≠ 0 :=
        fun h0 => he (List.isEmpty_iff_length_eq_zero.mpr h0)
      omega
    have hall : ((comps.filter (matchKeyB p)).map (mkMatched p)).countP
        (fun row => decide (row.conta = p))
        = (comps.filter (matchKeyB p)).length := by
      induction comps.filter (matchKeyB p) with
      | nil => rfl
      | cons c cs ih => simp [List.countP_cons, ih, mkMatched]
    rw [if_neg he, hall, hlen, Nat.max_eq_right hpos]

theorem exactRowsFor_other (comps : List Comp) (q p : Conta) (hne : q ≠ p) :
    (exactRowsFor comps q).countP (fun row => decide (row.conta = p)) = 0 := by
  rw [List.countP_eq_length_filter]
  have : (exactRowsFor comps q).filter (fun row => decide (row.conta = p)) = [] := by
    apply List.filter_eq_nil_iff.mpr
    intro row hrow
    have := exactRowsFor_conta comps q row hrow
    simp [this, hne]
  simp [this]

theorem exact_merge_mem (contas : List Conta) (comps : List Comp) (p : Conta) (r : Comp)
    (hp : p ∈ contas) (hr : r ∈ comps) (hk : matchKeyB p r = true) :
    mkMatched p r ∈ exact_merge contas comps := by
  induction contas with
  | nil => exact absurd hp (List.not_mem_nil p)
  | cons q cs ih =>
    rcases List.mem_cons.mp hp with rfl | hmem
    · have hmemf : r ∈ comps.filter (matchKeyB p) := List.mem_filter.mpr ⟨hr, hk⟩
      have hne : ¬(comps.filter (matchKeyB p)).isEmpty := by
        cases hcf : comps.filter (matchKeyB p) with
        | nil => rw [hcf] at hmemf; exact absurd hmemf (List.not_mem_nil r)
        | cons a as => simp [hcf]
      have : mkMatched p r ∈ exactRowsFor comps p := by
        unfold exactRowsFor
        rw [if_neg hne]
        exact List.mem_map.mpr ⟨r, hmemf, rfl⟩
      exact List.mem_append.mpr (Or.inl this)
    · exact List.mem_append.mpr (Or.inr (ih hmem))

theorem exact_merge_count (contas : List Conta) (comps : List Comp) (p : Conta) :
    (exact_merge contas comps).countP (fun row => decide (row.conta = p))
      = contas.countP (fun q => decide (q = p)) * max 1 (comps.countP (matchKeyB p)) := by
  induction contas with
  | nil => simp [exact_merge]
  | cons q cs ih =>
    simp only [exact_merge, List.countP_append, List.countP_cons, ih]
    by_cases h : q = p
    · subst h
      rw [exactRowsFor_count comps q]
      simp only [decide_eq_true_eq, if_true]
      ring
    · rw [exactRowsFor_other comps q p h]
      simp [h]

theorem exact_merge_unmatched (contas : List Conta) (comps : List Comp) (p : Conta)
    (hnone : comps.countP (matchKeyB p) = 0) (row : Row)
    (hrow : row ∈ exact_merge contas comps) (hconta : row.conta = p) :
    row = unmatchedRow p := by
  induction contas with
  | nil => exact absurd hrow (List.not_mem_nil row)
  | cons q cs ih =>
    rcases List.mem_append.mp hrow with hseg | hrest
    · have hq : row.conta = q := exactRowsFor_conta comps q row hseg
      have hqp : q = p := by rw [← hq, hconta]
      subst hqp
      have hempty : (comps.filter (matchKeyB q)).isEmpty := by
        rw [List.countP_eq_length_filter] at hnone
        cases hcf : comps.filter (matchKeyB q) with
        | nil => simp
        | cons a as => rw [hcf] at hnone; simp at hnone
      unfold exactRowsFor at hseg
      simp only [hempty, if_true, List.mem_singleton] at hseg
      rw [hseg]
    · exact ih hrest

/-! Fuzzy-merge lemmas. -/

theorem fuzzyRowsFor_sound (simFW simRF : String → String → ℚ) (method : String)
    (threshold : ℚ) (comps : List Comp) (conta : Conta) (rs : List Row)
    (h : fuzzyRowsFor simFW simRF method threshold comps conta = Except.ok rs) :
    ∀ row ∈ rs, ∀ cp, row.comp = some cp →
      cp.valorStd = row.conta.valorStd ∧
        ∃ s, row.fuzzyScore = some s ∧ threshold ≤ s := by
  unfold fuzzyRowsFor at h
  by_cases hc : (comps.filter (fun c => decide (c.valorStd = conta.valorStd))).isEmpty
  · simp only [hc, if_true, Except.ok.injEq] at h
    intro row hrow cp hcp
    rw [← h] at hrow
    simp only [List.mem_singleton] at hrow
    rw [hrow] at hcp
    exact absurd hcp (by simp [unmatchedRow])
  · by_cases hm : method = "fuzzywuzzy" ∨ method = "rapidfuzz"
    · rw [if_neg hc, if_pos hm] at h
      set sim := if method = "fuzzywuzzy" then simFW else simRF with hsim
      set hits := List.filter (fun c => decide (threshold ≤ combinedScore sim conta c))
        (comps.filter (fun c => decide (c.valorStd = conta.valorStd))) with hhits
      simp only [Except.ok.injEq] at h
      intro row hrow cp hcp
      rw [← h] at hrow
      by_cases hh : hits.isEmpty
      · rw [if_pos hh] at hrow
        simp only [List.mem_singleton] at hrow
        rw [hrow] at hcp
        exact absurd hcp (by simp [unmatchedRow])
      · rw [if_neg hh] at hrow
        rcases List.mem_map.mp hrow with ⟨c, hcf, hrowc⟩
        rcases List.mem_filter.mp (hhits ▸ hcf) with ⟨hcand, hscore⟩
        rcases List.mem_filter.mp hcand with ⟨_, hval⟩
        rw [← hrowc] at hcp ⊢
        simp only [Option.some.injEq] at hcp
        subst hcp
        exact ⟨by simpa using of_decide_eq_true hval, _, rfl, of_decide_eq_true hscore⟩
    · rw [if_neg hc, if_neg hm] at h
      exact absurd h (by simp)

theorem fuzzy_merge_sound (simFW simRF : String → String → ℚ) (method : String)
    (threshold : ℚ) (comps : List Comp) (contas : List Conta) (rows : List Row)
    (h : fuzzy_merge simFW simRF method threshold comps contas = Except.ok rows) :
    ∀ row ∈ rows, ∀ cp, row.comp = some cp →
      cp.valorStd = row.conta.valorStd ∧
        ∃ s, row.fuzzyScore = some s ∧ threshold ≤ s := by
  induction contas generalizing rows with
  | nil =>
    simp only [fuzzy_merge, Except.ok.injEq] at h
    rw [← h]
    intro row hrow
    exact absurd hrow (List.not_mem_nil row)
  | cons c cs ih =>
    unfold fuzzy_merge at h
    cases hfor : fuzzyRowsFor simFW simRF method threshold comps c with
    | error e => rw [hfor] at h; exact absurd h (by simp)
    | ok rs =>
      rw [hfor] at h
      cases hrec : fuzzy_merge simFW simRF method threshold comps cs with
      | error e => rw [hrec] at h; exact absurd h (by simp)
      | ok rest =>
        rw [hrec] at h
        simp only [Except.ok.injEq] at h
        rw [← h]
        intro row hrow cp hcp
        rcases List.mem_append.mp hrow with hseg | hrest
        · exact fuzzyRowsFor_sound simFW simRF method threshold comps c rs hfor
            row hseg cp hcp
        · exact ih rest hrec row hrest cp hcp

/-! Lemmas for the in-place standardization call. -/

theorem row_map_fst (cols : List String) (row : List (String × String)) :
    (row.map (fun kv => if kv.1 ∈ cols then (kv.1, normText kv.2) else kv)).map Prod.fst
      = row.map Prod.fst := by
  induction row with
  | nil => rfl
  | cons kv rest ih =>
    by_cases h : kv.1 ∈ cols <;> simp [h, ih]

theorem row_filter_unlisted (cols : List String) (row : List (String × String)) :
    (row.map (fun kv => if kv.1 ∈ cols then (kv.1, normText kv.2) else kv)).filter
        (fun kv => decide (kv.1 ∉ cols))
      = row.filter (fun kv => decide (kv.1 ∉ cols)) := by
  induction row with
  | nil => rfl
  | cons kv rest ih =>
    simp only [List.map_cons, List.filter_cons]
    by_cases h : kv.1 ∈ cols
    · have hd : (decide (kv.1 ∉ cols)) = false := by simp [h]
      rw [if_pos h]
      simp only [hd, Bool.false_eq_true, if_false, ih]
    · have hd : (decide (kv.1 ∉ cols)) = true := by simp [h]
      rw [if_neg h]
      simp only [hd, if_true, ih]

/-! Concrete sample data used by the witnesses and counterexamples. -/

/-- Similarity collaborator that always reports full similarity. -/
def simConst100 : String → String → ℚ := fun _ _ => 100

/-- Similarity collaborator that always reports zero similarity. -/
def simConst0 : String → String → ℚ := fun _ _ => 0

/-- Sample payable: code a, amount 10. -/
def samplePA : Conta := ⟨"acme", "bob", "01/02/2024", 10, 10, "a"⟩

/-- Sample payable: code b, same canonical key as samplePA. -/
def samplePB : Conta := ⟨"acme", "bob", "01/02/2024", 10, 10, "b"⟩

/-- Sample receipt matching the canonical key of samplePA and samplePB. -/
def sampleR9 : Comp := ⟨"acme", "bob", "01/02/2024", 10, 10, "9", "f.pdf"⟩

/-- Reconciled sample row with code b and document 1. -/
def rowB1 : Row := ⟨⟨"x", "y", "d1", 1, 1, "b"⟩, some ⟨"x", "y", "d2", 1, 1, "1", "g.pdf"⟩, none⟩

/-- Reconciled sample row with code a and document 2. -/
def rowA2 : Row := ⟨⟨"x", "y", "d1", 1, 1, "a"⟩, some ⟨"x", "y", "d2", 1, 1, "2", "h.pdf"⟩, none⟩

/-- Fuzzy sample payable. -/
def fuzzyConta : Conta := ⟨"acme ltda", "bob", "01/02/2024", 10, 10, "x1"⟩

/-- Fuzzy sample receipt with the same rounded amount. -/
def fuzzyComp : Comp := ⟨"acme", "bob", "01/02/2024", 10, 10, "77", "r.pdf"⟩

/-- Fuzzy sample receipt with dissimilar names and the same rounded amount. -/
def fuzzyCompFar : Comp := ⟨"zzz", "qqq", "01/02/2024", 10, 10, "5", "r.pdf"⟩

/-- Row produced for fuzzyConta and fuzzyComp under simConst100. -/
def fuzzyRow : Row :=
  ⟨fuzzyConta, some fuzzyComp, some (combinedScore simConst100 fuzzyConta fuzzyComp)⟩

/-- Receipt page whose amount text is non-numeric. -/
def pageAbc : String :=
  "Data da operação: 01/02/2024\nDocumento: 123\nEmpresa: Acme | CNPJ 1\nNome do favorecido: Bob\nValor R$ abc\n"

/-- Receipt page whose amount text matches the numeric pattern but does
not parse as a float. -/
def page123 : String :=
  "Data da operação: 01/02/2024\nDocumento: 123\nEmpresa: Acme | CNPJ 1\nNome do favorecido: Bob\nValor R$ 1,2,3\n"

/-! Claim theorems. -/

/-- Claim C1, counterexample: with two payables of distinct codes both
matched to the one receipt with document 9, the second payable is dropped
entirely by the receipt-side resolution and appears in zero rows of the
final reconciled table, refuting that every payable appears in exactly
one row. -/
theorem C1_dropped_payable_cx :
    samplePB ∈ [samplePA, samplePB]
    ∧ (reconcile_exact [samplePA, samplePB] [sampleR9] (fun _ => 0) (fun _ => 0)).countP
        (fun row => decide (row.conta = samplePB)) = 0 := by
  decide

/-- Claim C1, amended: after matching and ambiguity resolution every
payable record appears in at most one row of the final reconciled table;
a payable whose row loses a receipt-side decision is dropped and appears
in no row. -/
theorem C1_payable_at_most_one_row (contas : List Conta) (comps : List Comp)
    (decC decD : String → Nat) (p : Conta) :
    (reconcile_exact contas comps decC decD).countP
      (fun row => decide (row.conta = p)) ≤ 1 := by
  have hmono : ∀ (l : List Row), l.countP (fun row => decide (row.conta = p))
      ≤ l.countP (fun r => decide (codigoOf r = p.codigo)) := by
    intro l
    apply List.countP_mono_left
    intro a _ ha
    have : a.conta = p := of_decide_eq_true ha
    simp [codigoOf, this]
  show (if hasAmbiguity (exact_merge contas comps) then
      resolve_ambiguities (exact_merge contas comps) decC decD
    else exact_merge contas comps).countP (fun row => decide (row.conta = p)) ≤ 1
  by_cases h : hasAmbiguity (exact_merge contas comps)
  · rw [if_pos h]
    exact le_trans (hmono _)
      (resolve_ambiguities_codigo_le_one (exact_merge contas comps) decC decD p.codigo)
  · rw [if_neg h]
    have hnd : ((exact_merge contas comps).map codigoOf).Nodup := by
      by_contra hC
      exact h (by unfold hasAmbiguity; simp [hC])
    refine le_trans (hmono _) ?_
    rw [countP_codigo_eq_count]
    exact List.nodup_iff_count_le_one.mp hnd p.codigo

/-- Claim C2: the ledger amount canonicalization only replaces commas by
dots and strips a lowercase currency prefix, so a Valor written with the
dot thousands separator fails the float conversion (a ValueError in
Python, none here) instead of parsing to 1234.56; the same text without
the thousands separator and with a lowercase prefix parses fine. -/
theorem C2_ledger_valor_parse_bug :
    ledgerValorParse "1.234,56" = none
    ∧ ledgerValorParse "R$ 1.234,56" = none
    ∧ (ledgerValorParse "r$ 1234,56").isSome = true := by
  decide

/-- Claim C3: under the fuzzy strategy with either similarity library,
every matched candidate row pairs the payable with a receipt of equal
rounded amount and carries a score at least the threshold; no amount
mismatch is ever emitted regardless of the similarity function. -/
theorem C3_fuzzy_candidates_sound (simFW simRF : String → String → ℚ) (method : String)
    (threshold : ℚ) (comps : List Comp) (contas : List Conta) (rows : List Row)
    (h : fuzzy_merge simFW simRF method threshold comps contas = Except.ok rows)
    (row : Row) (hrow : row ∈ rows) (cp : Comp) (hcp : row.comp = some cp) :
    cp.valorStd = row.conta.valorStd ∧
      ∃ s, row.fuzzyScore = some s ∧ threshold ≤ s :=
  fuzzy_merge_sound simFW simRF method threshold comps contas rows h row hrow cp hcp

/-- Claim C3, witness at a concrete run of the fuzzywuzzy method. -/
theorem C3_fuzzy_candidates_sound_witness :
    fuzzyComp.valorStd = fuzzyRow.conta.valorStd ∧
      ∃ s, fuzzyRow.fuzzyScore = some s ∧ (90 : ℚ) ≤ s :=
  C3_fuzzy_candidates_sound simConst100 simConst100 "fuzzywuzzy" 90 [fuzzyComp]
    [fuzzyConta] [fuzzyRow] (by with_unfolding_all rfl) fuzzyRow
    (List.mem_singleton.mpr rfl) fuzzyComp rfl

/-- Claim C4: after the two-phase ambiguity resolution no Código value
and no non-null document value appears in more than one surviving row. -/
theorem C4_resolver_no_duplicates (rows : List Row) (decC decD : String → Nat) :
    (∀ c, (resolve_ambiguities rows decC decD).countP
        (fun r => decide (codigoOf r = c)) ≤ 1)
    ∧ (∀ d, (resolve_ambiguities rows decC decD).countP
        (fun r => decide (docOf r = some d)) ≤ 1) :=
  ⟨fun c => resolve_ambiguities_codigo_le_one rows decC decD c,
    fun d => resolve_documento_doc_le_one (resolve_codigo rows decC) decD d⟩

/-- Claim C5, counterexample: a fully resolved two-row table whose codes
are not in ascending order is reordered by the resolver (groupby
iterates the Código groups in sorted order), refuting that the resolver
returns every resolved input unchanged. -/
theorem C5_resolver_reorders_cx :
    (([rowB1, rowA2].map codigoOf).Nodup ∧ ([rowB1, rowA2].filterMap docOf).Nodup)
    ∧ resolve_ambiguities [rowB1, rowA2] (fun _ => 0) (fun _ => 0) ≠ [rowB1, rowA2] := by
  decide

/-- Claim C5, amended: on a resolved table (every Código group and every
non-null document group of size one) the resolver returns the same rows
stably reordered into ascending Código order, hence returns the input
unchanged exactly when the input is already sorted by Código. -/
theorem C5_resolver_idempotent_on_sorted (rows : List Row) (decC decD : String → Nat)
    (h1 : (rows.map codigoOf).Nodup) (h2 : (rows.filterMap docOf).Nodup)
    (h3 : (rows.map codigoOf).Pairwise (fun a b => strLe a b = true)) :
    resolve_ambiguities rows decC decD = rows := by
  unfold resolve_ambiguities
  rw [resolve_codigo_resolved rows decC h1 h3, resolve_documento_resolved rows decD h2]

/-- Claim C5, witness at a concrete sorted resolved table. -/
theorem C5_resolver_idempotent_on_sorted_witness :
    resolve_ambiguities [rowA2, rowB1] (fun _ => 0) (fun _ => 0) = [rowA2, rowB1] :=
  C5_resolver_idempotent_on_sorted [rowA2, rowB1] (fun _ => 0) (fun _ => 0)
    (by decide) (by decide) (by decide)

/-- Claim C6, counterexample: a page carrying all other receipt fields
whose amount text is the non-numeric "abc" does not yield a record with
amount 0.0; the amount pattern requires digits, dots or commas, so the
whole page is skipped. -/
theorem C6_nonnumeric_amount_skips_page_cx :
    (searchDataOperacao pageAbc).isSome = true
    ∧ (searchDocumento pageAbc).isSome = true
    ∧ (searchEmpresa pageAbc).isSome = true
    ∧ (searchFavorecido pageAbc).isSome = true
    ∧ extractPage pageAbc = none := by
  decide

/-- Claim C6, amended: when the amount group is captured by the numeric
pattern but fails the float conversion, extraction of the page still
succeeds and the record carries amount 0.0; amount text that the numeric
pattern cannot capture (such as letters) skips the page instead. -/
theorem C6_amount_parse_failure_zero (text : String) (d n e f v : List Char)
    (h1 : searchDataOperacao text = some d) (h2 : searchDocumento text = some n)
    (h3 : searchEmpresa text = some e) (h4 : searchFavorecido text = some f)
    (h5 : searchValor text = some v)
    (h6 : pyFloat (String.mk (commaToDot ((trimWs v).filter (fun c => c != '.')))) = none) :
    ∃ s, extractPage text = some s ∧ s.valor = 0 := by
  unfold extractPage
  rw [h1, h2, h3, h4, h5]
  refine ⟨_, rfl, ?_⟩
  show valorGroupToRat v = 0
  unfold valorGroupToRat
  rw [h6]
  rfl

/-- Claim C6, witness at a concrete page with amount text 1,2,3. -/
theorem C6_amount_parse_failure_zero_witness :
    ∃ s, extractPage page123 = some s ∧ s.valor = 0 :=
  C6_amount_parse_failure_zero page123 "01/02/2024".data "123".data "Acme".data
    "Bob".data "1,2,3".data (by decide) (by decide) (by decide) (by decide)
    (by decide) (by decide)

/-- Claim C7: the exact strategy is a left join on the standardized key
columns: every payable and receipt with equal canonical keys produce a
matched row in the candidate table; a payable with no key-equal receipt
contributes only its single unmatched row; and each occurrence of a
payable contributes one row per key-equal receipt, or one unmatched row
when there is none. -/
theorem C7_exact_strategy_join (contas : List Conta) (comps : List Comp) (p : Conta)
    (hp : p ∈ contas) :
    (∀ r ∈ comps, matchKeyB p r = true → mkMatched p r ∈ exact_merge contas comps)
    ∧ (comps.countP (matchKeyB p) = 0 → ∀ row ∈ exact_merge contas comps,
        row.conta = p → row = unmatchedRow p)
    ∧ (exact_merge contas comps).countP (fun row => decide (row.conta = p))
        = contas.countP (fun q => decide (q = p)) * max 1 (comps.countP (matchKeyB p)) :=
  ⟨fun r hr hk => exact_merge_mem contas comps p r hp hr hk,
    fun h0 row hrow hc => exact_merge_unmatched contas comps p h0 row hrow hc,
    exact_merge_count contas comps p⟩

/-- Claim C7, witness at a concrete one-payable one-receipt join. -/
theorem C7_exact_strategy_join_witness :
    mkMatched samplePA sampleR9 ∈ exact_merge [samplePA] [sampleR9]
    ∧ (exact_merge [samplePA] [sampleR9]).countP
        (fun row => decide (row.conta = samplePA)) = 1 := by
  have h := C7_exact_strategy_join [samplePA] [sampleR9] samplePA
    (List.mem_singleton.mpr rfl)
  refine ⟨h.1 sampleR9 (List.mem_singleton.mpr rfl) (by decide), ?_⟩
  rw [h.2.2]
  decide

/-- Claim C8: under the fuzzy strategy, a payable for which no receipt
passes both the amount pre-filter and the similarity threshold emits
exactly one unmatched row, never zero and never several. -/
theorem C8_fuzzy_unmatched_unique (simFW simRF : String → String → ℚ) (method : String)
    (threshold : ℚ) (comps : List Comp) (conta : Conta)
    (hm : method = "fuzzywuzzy" ∨ method = "rapidfuzz")
    (hno : ∀ c ∈ comps, c.valorStd = conta.valorStd →
      combinedScore (if method = "fuzzywuzzy" then simFW else simRF) conta c < threshold) :
    fuzzyRowsFor simFW simRF method threshold comps conta
      = Except.ok [unmatchedRow conta] := by
  unfold fuzzyRowsFor
  by_cases hc : (comps.filter (fun c => decide (c.valorStd = conta.valorStd))).isEmpty
  · rw [if_pos hc]
  · rw [if_neg hc, if_pos hm]
    have hhits : List.filter
        (fun c => decide (threshold ≤
          combinedScore (if method = "fuzzywuzzy" then simFW else simRF) conta c))
        (comps.filter (fun c => decide (c.valorStd = conta.valorStd))) = [] := by
      apply List.filter_eq_nil_iff.mpr
      intro c hcf
      rcases List.mem_filter.mp hcf with ⟨hmem, hval⟩
      have hlt := hno c hmem (of_decide_eq_true hval)
      simp only [decide_eq_true_eq]
      exact not_le.mpr hlt
    simp [hhits]

/-- Claim C8, witness: one receipt passes the amount pre-filter but not
the threshold, and the payable still yields exactly its unmatched row. -/
theorem C8_fuzzy_unmatched_unique_witness :
    fuzzyRowsFor simConst0 simConst0 "rapidfuzz" 90 [fuzzyCompFar] fuzzyConta
      = Except.ok [unmatchedRow fuzzyConta] :=
  C8_fuzzy_unmatched_unique simConst0 simConst0 "rapidfuzz" 90 [fuzzyCompFar] fuzzyConta
    (Or.inr rfl)
    (by
      intro c hc _
      have hceq : c = fuzzyCompFar := List.mem_singleton.mp hc
      subst hceq
      with_unfolding_all decide)

/-- Claim C9, counterexample: standardize_data mutates the dataframe it
receives; after the call the argument no longer holds its original cell
text, refuting that the argument is left unchanged. -/
theorem C9_standardize_mutates_cx :
    (standardize_data_call [[("Empresa", " A ")]] ["Empresa"]).argAfter
      ≠ [[("Empresa", " A ")]] := by
  decide

/-- Claim C9, amended: standardize_data normalizes the listed columns of
its argument in place and returns that same object: the returned frame
and the argument state after the call coincide, the column names and the
cells of unlisted columns are untouched. -/
theorem C9_standardize_inplace (df : List (List (String × String))) (cols : List String) :
    (standardize_data_call df cols).ret = (standardize_data_call df cols).argAfter
    ∧ (standardize_data_call df cols).argAfter.map (fun row => row.map Prod.fst)
        = df.map (fun row => row.map Prod.fst)
    ∧ (standardize_data_call df cols).argAfter.map
          (fun row => row.filter (fun kv => decide (kv.1 ∉ cols)))
        = df.map (fun row => row.filter (fun kv => decide (kv.1 ∉ cols))) := by
  refine ⟨rfl, ?_, ?_⟩
  · show (standardize_data_table df cols).map (fun row => row.map Prod.fst)
      = df.map (fun row => row.map Prod.fst)
    unfold standardize_data_table
    rw [List.map_map]
    exact List.map_congr_left (fun row _ => row_map_fst cols row)
  · show (standardize_data_table df cols).map
        (fun row => row.filter (fun kv => decide (kv.1 ∉ cols)))
      = df.map (fun row => row.filter (fun kv => decide (kv.1 ∉ cols)))
    unfold standardize_data_table
    rw [List.map_map]
    exact List.map_congr_left (fun row _ => row_filter_unlisted cols row)

/-- Claim C10: fuzzy_merge is total only for the two known method
strings; for any other method, as soon as some payable has a receipt
with an equal rounded amount the loop body reads the never-assigned
score variables and the call raises instead of returning. -/
theorem C10_unknown_method_error (simFW simRF : String → String → ℚ) (threshold : ℚ)
    (comps : List Comp) (contas : List Conta) (method : String)
    (h1 : method ≠ "fuzzywuzzy") (h2 : method ≠ "rapidfuzz")
    (h3 : ∃ c ∈ contas, ∃ r ∈ comps, r.valorStd = c.valorStd) :
    ∃ e, fuzzy_merge simFW simRF method threshold comps contas = Except.error e := by
  induction contas with
  | nil =>
    rcases h3 with ⟨c, hc, _⟩
    exact absurd hc (List.not_mem_nil c)
  | cons c cs ih =>
    by_cases hce : (comps.filter (fun x => decide (x.valorStd = c.valorStd))).isEmpty
    · have h3' : ∃ c0 ∈ cs, ∃ r ∈ comps, r.valorStd = c0.valorStd := by
        rcases h3 with ⟨c0, hc0, r, hr, heq⟩
        rcases List.mem_cons.mp hc0 with rfl | hmem
        · exfalso
          have hmemf : r ∈ comps.filter (fun x => decide (x.valorStd = c0.valorStd)) :=
            List.mem_filter.mpr ⟨hr, by simpa using heq⟩
          rw [List.isEmpty_iff.mp hce] at hmemf
          exact absurd hmemf (List.not_mem_nil r)
        · exact ⟨c0, hmem, r, hr, heq⟩
      rcases ih h3' with ⟨e, he⟩
      refine ⟨e, ?_⟩
      have hfor : fuzzyRowsFor simFW simRF method threshold comps c
          = Except.ok [unmatchedRow c] := by
        unfold fuzzyRowsFor
        rw [if_pos hce]
      simp only [fuzzy_merge, hfor, he]
    · refine ⟨"NameError: name score_empresa is not defined", ?_⟩
      have hm : ¬(method = "fuzzywuzzy" ∨ method = "rapidfuzz") := by
        rintro (h | h)
        · exact h1 h
        · exact h2 h
      have hfor : fuzzyRowsFor simFW simRF method threshold comps c
          = Except.error "NameError: name score_empresa is not defined" := by
        unfold fuzzyRowsFor
        rw [if_neg hce, if_neg hm]
      simp only [fuzzy_merge, hfor]

/-- Claim C10, witness at the unknown method string levenshtein. -/
theorem C10_unknown_method_error_witness :
    ∃ e, fuzzy_merge simConst100 simConst100 "levenshtein" 90 [fuzzyComp] [fuzzyConta]
      = Except.error e :=
  C10_unknown_method_error simConst100 simConst100 90 [fuzzyComp] [fuzzyConta]
    "levenshtein" (by decide) (by decide)
    ⟨fuzzyConta, List.mem_singleton.mpr rfl, fuzzyComp, List.mem_singleton.mpr rfl, rfl⟩

end App
